import Mathlib

/-!
Verification development for the quaternion library (scalar quaternion type,
textual parser, hashing, rotation helpers, transcendental layer and array
container).  The library's compiled implementation is not part of the source
tree (only its Python test-suite and packaging are), so each operation is
modelled from the specification, cross-checked against the behaviour fixed by
the tests; rational numbers stand in for IEEE-754 binary64 values in the
basic layer and real numbers in the transcendental layer.
-/

/-- Modelled from the spec: an immutable record of four binary64 components
`(w, x, y, z)` representing `w + x·i + y·j + z·k`.  Components are modelled
as rationals (exact values of the floats occurring in the claims). -/
structure Quat where
  w : ℚ
  x : ℚ
  y : ℚ
  z : ℚ
deriving DecidableEq, Repr

/-- Modelled from the spec: error kinds surfaced by the library. -/
inductive QErr where
  | valueError
  | typeError
  | divisionByZero
  | domainError
deriving DecidableEq, Repr

/-- Zero quaternion, module constant `zero`. -/
def qZero : Quat := ⟨0, 0, 0, 0⟩

/-- Module constant `one`. -/
def qOne : Quat := ⟨1, 0, 0, 0⟩

/-- Module constant `i`. -/
def qI : Quat := ⟨0, 1, 0, 0⟩

/-- Module constant `j`. -/
def qJ : Quat := ⟨0, 0, 1, 0⟩

/-- Module constant `k`. -/
def qK : Quat := ⟨0, 0, 0, 1⟩

/-- Componentwise addition. -/
def Quat.add (p q : Quat) : Quat := ⟨p.w + q.w, p.x + q.x, p.y + q.y, p.z + q.z⟩

/-- Componentwise negation. -/
def Quat.neg (q : Quat) : Quat := ⟨-q.w, -q.x, -q.y, -q.z⟩

/-- Modelled from the spec: the Hamilton product
`w'' = ww' − xx' − yy' − zz'`, `x'' = wx' + xw' + yz' − zy'`,
`y'' = wy' + yw' + zx' − xz'`, `z'' = wz' + zw' + xy' − yx'`. -/
def Quat.mul (q p : Quat) : Quat :=
  ⟨q.w * p.w - q.x * p.x - q.y * p.y - q.z * p.z,
   q.w * p.x + q.x * p.w + q.y * p.z - q.z * p.y,
   q.w * p.y + q.y * p.w + q.z * p.x - q.x * p.z,
   q.w * p.z + q.z * p.w + q.x * p.y - q.y * p.x⟩

instance : Add Quat := ⟨Quat.add⟩
instance : Neg Quat := ⟨Quat.neg⟩
instance : Mul Quat := ⟨Quat.mul⟩

/-- Conjugate `(w, −x, −y, −z)`. -/
def Quat.conj (q : Quat) : Quat := ⟨q.w, -q.x, -q.y, -q.z⟩

/-- Quadrance `w² + x² + y² + z²` (norm squared). -/
def Quat.quadrance (q : Quat) : ℚ := q.w ^ 2 + q.x ^ 2 + q.y ^ 2 + q.z ^ 2

/-- Multiplication of a quaternion by a real scalar. -/
def Quat.scale (c : ℚ) (q : Quat) : Quat := ⟨c * q.w, c * q.x, c * q.y, c * q.z⟩

/-- Modelled from the spec: `inverse(Q) = conj(Q) / quadrance(Q)`, failing
with *DivisionByZero* when `Q == 0`. -/
def Quat.inverse (q : Quat) : Except QErr Quat :=
  if q = qZero then .error .divisionByZero
  else .ok (Quat.scale (q.quadrance)⁻¹ q.conj)

/-- Modelled from the spec: division `Q / P = Q · inverse(P)`
(right-multiplication by the inverse), failing with *DivisionByZero*
when the right operand is the zero quaternion. -/
def Quat.div (q p : Quat) : Except QErr Quat :=
  match p.inverse with
  | .ok r => .ok (q * r)
  | .error e => .error e

/-- Modelled from the spec: `dot(P, Q) = Pw·Qw + Px·Qx + Py·Qy + Pz·Qz`. -/
def Quat.dot (p q : Quat) : ℚ := p.w * q.w + p.x * q.x + p.y * q.y + p.z * q.z

/-- Modelled from the tests: the matrix-multiplication operator `P @ Q`
returns the real number `dot(P, Q)` (`test_dot2` in `src/test/test_02.py`). -/
def Quat.matmulOp (p q : Quat) : ℚ := Quat.dot p q

/-- Modelled from the spec: the derived attribute `complex = w + y·i`
(given as an (re, im) pair; the imaginary part of the complex view is `y`). -/
def Quat.complexView (q : Quat) : ℚ × ℚ := (q.w, q.y)

/-- Modelled from the spec: the shapes accepted wherever a quaternion is
expected — a quaternion, a real, a complex pair `(a, b)`, a 4-tuple. -/
inductive QItem where
  | real (r : ℚ)
  | cplx (a b : ℚ)
  | quat (q : Quat)
  | tuple4 (w x y z : ℚ)
deriving DecidableEq, Repr

/-- Modelled from the spec: the single conversion function `toQ` of the
coercion lattice — a real promotes to `(r,0,0,0)`, a complex pair `(a,b)` to
`(a,0,b,0)`, a quaternion passes through, a 4-tuple maps componentwise. -/
def toQ : QItem → Quat
  | .real r => ⟨r, 0, 0, 0⟩
  | .cplx a b => ⟨a, 0, b, 0⟩
  | .quat q => q
  | .tuple4 w x y z => ⟨w, x, y, z⟩

/-- Modelled from the tests: the `QuaternionArray` constructor copies the
elements of its `initial` iterable, coercing each element through `toQ`
(`test_array_assign` and `test_array_slice` in `src/test/test_04.py`:
`Qa([1,2,3,4])` has length 4 and `Qa` of 23 doubles has length 23). -/
def qaNew (initial : List QItem) : List Quat := initial.map toQ

/-- C1: for all quaternions the product is the Hamilton product, and
consequently `i·j = k = −(j·i)`, `j·k = i`, `k·i = j`, and
`i² = j² = k² = i·j·k = −1`. -/
theorem mul_is_hamilton_product :
    (∀ q p : Quat,
      (q * p).w = q.w * p.w - q.x * p.x - q.y * p.y - q.z * p.z ∧
      (q * p).x = q.w * p.x + q.x * p.w + q.y * p.z - q.z * p.y ∧
      (q * p).y = q.w * p.y + q.y * p.w + q.z * p.x - q.x * p.z ∧
      (q * p).z = q.w * p.z + q.z * p.w + q.x * p.y - q.y * p.x) ∧
    qI * qJ = qK ∧ qK = -(qJ * qI) ∧ qJ * qK = qI ∧ qK * qI = qJ ∧
    qI * qI = -qOne ∧ qJ * qJ = -qOne ∧ qK * qK = -qOne ∧
    qI * qJ * qK = -qOne := by
  refine ⟨fun q p => ⟨rfl, rfl, rfl, rfl⟩, ?_, ?_, ?_, ?_, ?_, ?_, ?_, ?_⟩ <;>
    norm_num [qI, qJ, qK, qOne, Quat.mul, Quat.neg, Quat.mk.injEq,
      show ∀ p q : Quat, p * q = Quat.mul p q from fun _ _ => rfl,
      show ∀ q : Quat, -q = Quat.neg q from fun _ => rfl]

/-- C2: for every quaternion `Q` and nonzero `P`, `Q / P = Q · inverse(P)`
with `inverse(P) = conj(P) / quadrance(P)`; the inverse of the zero
quaternion and division by the zero quaternion fail with *DivisionByZero*. -/
theorem div_is_right_mul_by_inverse :
    (∀ q p : Quat, p ≠ qZero →
      p.inverse = .ok (Quat.scale (p.quadrance)⁻¹ p.conj) ∧
      q.div p = .ok (q * Quat.scale (p.quadrance)⁻¹ p.conj)) ∧
    Quat.inverse qZero = .error .divisionByZero ∧
    (∀ q : Quat, q.div qZero = .error .divisionByZero) := by
  refine ⟨fun q p hp => ?_, ?_, fun q => ?_⟩
  · rw [Quat.div, Quat.inverse, if_neg hp]
    exact ⟨rfl, rfl⟩
  · rw [Quat.inverse, if_pos rfl]
  · rw [Quat.div, Quat.inverse, if_pos rfl]

/-- Witness for C2 at the concrete nonzero divisor `k`. -/
theorem div_is_right_mul_by_inverse_witness :
    Quat.div qOne qK = .ok (qOne * Quat.scale (Quat.quadrance qK)⁻¹ (Quat.conj qK)) :=
  (div_is_right_mul_by_inverse.1 qOne qK (by decide)).2

/-- C3: a complex pair `(a, b)` promotes to the quaternion `(a, 0, b, 0)`
(the complex imaginary part lands in component `y`), and conversely the
derived attribute `complex` of any quaternion is the pair `(w, y)`. -/
theorem complex_promotion_uses_y :
    (∀ a b : ℚ, toQ (.cplx a b) = ⟨a, 0, b, 0⟩) ∧
    (∀ q : Quat, q.complexView = (q.w, q.y)) ∧
    (∀ a b : ℚ, (toQ (.cplx a b)).complexView = (a, b)) :=
  ⟨fun _ _ => rfl, fun _ => rfl, fun _ _ => rfl⟩

/-- C10: `P @ Q` is the real number `Pw·Qw + Px·Qx + Py·Qy + Pz·Qz`
(the module function `dot`), it is symmetric, and `Q @ Q` is the
quadrance of `Q`. -/
theorem matmul_is_dot :
    (∀ p q : Quat, p.matmulOp q = p.w * q.w + p.x * q.x + p.y * q.y + p.z * q.z) ∧
    (∀ p q : Quat, p.matmulOp q = Quat.dot p q) ∧
    (∀ p q : Quat, p.matmulOp q = q.matmulOp p) ∧
    (∀ q : Quat, q.matmulOp q = q.quadrance) := by
  refine ⟨fun p q => rfl, fun p q => rfl, fun p q => ?_, fun q => ?_⟩
  · simp only [Quat.matmulOp, Quat.dot]; ring
  · simp only [Quat.matmulOp, Quat.dot, Quat.quadrance]; ring

/-- The quaternion `[0, v]` with vector part the 3-tuple `v`. -/
def pureVec (v : ℚ × ℚ × ℚ) : Quat := ⟨0, v.1, v.2.1, v.2.2⟩

/-- The derived attribute `vector = imag = (x, y, z)`. -/
def Quat.vectorPart (q : Quat) : ℚ × ℚ × ℚ := (q.x, q.y, q.z)

/-- Modelled from the spec: `rotate(v)` returns `(Q · [0,v] · conj(Q)).vector`. -/
def Quat.rotate (q : Quat) (v : ℚ × ℚ × ℚ) : ℚ × ℚ × ℚ :=
  (q * pureVec v * q.conj).vectorPart

/-- Modelled from the spec: `matrix()`, the 3×3 rotation matrix of a unit
quaternion, by the standard formula of section 4.C. -/
def Quat.matrixOf (q : Quat) : Matrix (Fin 3) (Fin 3) ℚ :=
  !![1 - 2*(q.y^2 + q.z^2), 2*(q.x*q.y - q.z*q.w), 2*(q.x*q.z + q.y*q.w);
     2*(q.x*q.y + q.z*q.w), 1 - 2*(q.x^2 + q.z^2), 2*(q.y*q.z - q.x*q.w);
     2*(q.x*q.z - q.y*q.w), 2*(q.y*q.z + q.x*q.w), 1 - 2*(q.x^2 + q.y^2)]

/-- The homogeneous (quadrance-scaled) rotation matrix; agrees with
`matrixOf` on unit quaternions and is exactly multiplicative. -/
def hMat (q : Quat) : Matrix (Fin 3) (Fin 3) ℚ :=
  !![q.w^2 + q.x^2 - q.y^2 - q.z^2, 2*(q.x*q.y - q.z*q.w), 2*(q.x*q.z + q.y*q.w);
     2*(q.x*q.y + q.z*q.w), q.w^2 - q.x^2 + q.y^2 - q.z^2, 2*(q.y*q.z - q.x*q.w);
     2*(q.x*q.z - q.y*q.w), 2*(q.y*q.z + q.x*q.w), q.w^2 - q.x^2 - q.y^2 + q.z^2]

/-- A 3-tuple as a `Fin 3`-indexed vector. -/
def vecFin (v : ℚ × ℚ × ℚ) : Fin 3 → ℚ := ![v.1, v.2.1, v.2.2]

theorem Quat.mul_def (p q : Quat) : p * q = Quat.mul p q := rfl

theorem quadrance_mul (p q : Quat) :
    (p * q).quadrance = p.quadrance * q.quadrance := by
  simp only [Quat.mul_def, Quat.mul, Quat.quadrance]
  ring

theorem hMat_mulVec (q : Quat) (v : ℚ × ℚ × ℚ) :
    (hMat q).mulVec (vecFin v) = vecFin (q.rotate v) := by
  funext i
  fin_cases i <;>
    simp [hMat, vecFin, Quat.rotate, Quat.mul_def, Quat.mul, Quat.conj, pureVec,
      Quat.vectorPart, Matrix.mulVec, Matrix.dotProduct, Fin.sum_univ_three] <;>
    ring

theorem hMat_mul (p q : Quat) : hMat (p * q) = hMat p * hMat q := by
  ext i j
  fin_cases i <;> fin_cases j <;>
    simp [hMat, Quat.mul_def, Quat.mul, Matrix.mul_apply, Fin.sum_univ_three] <;>
    ring

theorem matrixOf_eq_hMat {q : Quat} (h : q.quadrance = 1) :
    q.matrixOf = hMat q := by
  have h' : q.w ^ 2 + q.x ^ 2 + q.y ^ 2 + q.z ^ 2 = 1 := h
  ext i j
  fin_cases i <;> fin_cases j <;>
    simp [Quat.matrixOf, hMat] <;>
    linear_combination -h'

/-- C8: `rotate(v)` is the vector part of `Q·[0,v]·conj(Q)`; for unit `Q`
this equals applying the 3×3 matrix `Q.matrix()` to `v`, and on unit
quaternions the matrix map is multiplicative:
`(Qa·Qb).matrix() = Qa.matrix() · Qb.matrix()` (exactly, in the rational
model standing in for the 1e-15 float tolerance). -/
theorem rotate_matrix_agreement :
    (∀ (q : Quat) (v : ℚ × ℚ × ℚ), q.rotate v = (q * pureVec v * q.conj).vectorPart) ∧
    (∀ (q : Quat) (v : ℚ × ℚ × ℚ), q.quadrance = 1 →
      (q.matrixOf).mulVec (vecFin v) = vecFin (q.rotate v)) ∧
    (∀ p q : Quat, p.quadrance = 1 → q.quadrance = 1 →
      (p * q).matrixOf = p.matrixOf * q.matrixOf) := by
  refine ⟨fun q v => rfl, fun q v h => ?_, fun p q hp hq => ?_⟩
  · rw [matrixOf_eq_hMat h, hMat_mulVec]
  · have hpq : (p * q).quadrance = 1 := by rw [quadrance_mul, hp, hq, one_mul]
    rw [matrixOf_eq_hMat hpq, matrixOf_eq_hMat hp, matrixOf_eq_hMat hq, hMat_mul]

/-- Witness for C8 at the unit quaternions `(3/5, 4/5, 0, 0)` and `k`
and the vector `(1, 2, 3)`. -/
theorem rotate_matrix_agreement_witness :
    (Quat.matrixOf ⟨3/5, 4/5, 0, 0⟩).mulVec (vecFin (1, 2, 3)) =
      vecFin (Quat.rotate ⟨3/5, 4/5, 0, 0⟩ (1, 2, 3)) ∧
    (Quat.mk (3/5) (4/5) 0 0 * qK).matrixOf =
      (Quat.mk (3/5) (4/5) 0 0).matrixOf * qK.matrixOf := by
  have h1 : Quat.quadrance ⟨3/5, 4/5, 0, 0⟩ = 1 := by
    norm_num [Quat.quadrance]
  have h2 : Quat.quadrance qK = 1 := by
    norm_num [Quat.quadrance, qK]
  exact ⟨rotate_matrix_agreement.2.1 _ _ h1,
    rotate_matrix_agreement.2.2 _ _ h1 h2⟩

/-- C9 counterexample: the constructor accepts flat float iterables whose
length is not a multiple of 4 (length 5 yields five elements), and a
length-4 float iterable yields four promoted quaternions, not one packed
`(1,2,3,4)` slot (`test_array_assign`, `test_array_slice`). -/
theorem array_new_flat_float_cex :
    (qaNew (([1, 2, 3, 4, 5] : List ℚ).map QItem.real)).length = 5 ∧
    qaNew (([1, 2, 3, 4] : List ℚ).map QItem.real) =
      [⟨1, 0, 0, 0⟩, ⟨2, 0, 0, 0⟩, ⟨3, 0, 0, 0⟩, ⟨4, 0, 0, 0⟩] :=
  ⟨rfl, rfl⟩

/-- C9 amended: the constructor copies its `initial` iterable element by
element through the coercion lattice; a flat float iterable of any length
`n` yields `n` quaternions, the `i`-th being `(xs i, 0, 0, 0)`, with no
multiple-of-4 requirement and no *ValueError* on length. -/
theorem array_new_per_element :
    (∀ xs : List ℚ,
      qaNew (xs.map QItem.real) = xs.map (fun r => Quat.mk r 0 0 0)) ∧
    (∀ xs : List ℚ, (qaNew (xs.map QItem.real)).length = xs.length) := by
  constructor
  · intro xs
    rw [qaNew, List.map_map]
    rfl
  · intro xs
    simp [qaNew]

/-- Whitespace characters stripped by the parser at the outer edges and
inside the optional surrounding parentheses. -/
def isWsChar (c : Char) : Bool :=
  c == ' ' || c == '\t' || c == '\n' || c == '\r' || c == '\x0b' || c == '\x0c'

/-- Strip leading and trailing whitespace. -/
def trimWs (cs : List Char) : List Char :=
  ((cs.dropWhile isWsChar).reverse.dropWhile isWsChar).reverse

/-- One optional surrounding pair of parentheses; whitespace just inside
the pair is trimmed.  An opening parenthesis without its closing partner
is malformed. -/
def stripOuter (cs : List Char) : Option (List Char) :=
  match cs with
  | '(' :: rest =>
    match rest.reverse with
    | ')' :: rev => some (trimWs rev.reverse)
    | _ => none
  | _ => some cs

/-- Numeric value of a decimal digit. -/
def digitVal (c : Char) : ℕ := c.toNat - '0'.toNat

/-- Split off a (possibly empty) run of leading decimal digits. -/
def takeDigits : List Char → List ℕ × List Char
  | [] => ([], [])
  | c :: cs =>
    if c.isDigit then
      let (ds, rest) := takeDigits cs
      (digitVal c :: ds, rest)
    else ([], c :: cs)

/-- Value of a digit run, most significant first. -/
def natOfDigits (ds : List ℕ) : ℕ := ds.foldl (fun a d => 10 * a + d) 0

/-- An optionally signed digit run (the exponent of a literal). -/
def parseSignedNat (cs : List Char) : Option (ℤ × List Char) :=
  let (neg, cs1) : Bool × List Char :=
    match cs with
    | '+' :: r => (false, r)
    | '-' :: r => (true, r)
    | _ => (false, cs)
  let (ds, cs2) := takeDigits cs1
  if ds.isEmpty then none
  else some (if neg then -(natOfDigits ds : ℤ) else (natOfDigits ds : ℤ), cs2)

/-- An optional `e`/`E` exponent part; absent means exponent `0`. -/
def parseExpPart : List Char → Option (ℤ × List Char)
  | 'e' :: r => parseSignedNat r
  | 'E' :: r => parseSignedNat r
  | cs => some (0, cs)

/-- The exact rational value `±m · 10^(e−s)` of a decimal literal with
mantissa digits `m`, `s` fractional digits and exponent `e` (the model
keeps the exact value of the literal that the float conversion rounds). -/
def mkValue (neg : Bool) (m s : ℕ) (e : ℤ) : ℚ :=
  let n : ℤ := if neg then -(m : ℤ) else (m : ℤ)
  let t : ℤ := e - (s : ℤ)
  if 0 ≤ t then Rat.divInt (n * 10 ^ t.toNat) 1
  else Rat.divInt n (10 ^ (-t).toNat)

/-- A signed binary64 decimal literal: optional sign, integer digits,
optional fraction, optional exponent; at least one mantissa digit is
required and an exponent marker must be followed by digits. -/
def parseNumber (cs : List Char) : Option (ℚ × List Char) :=
  let (neg, cs1) : Bool × List Char :=
    match cs with
    | '+' :: r => (false, r)
    | '-' :: r => (true, r)
    | _ => (false, cs)
  let (ids, cs2) := takeDigits cs1
  let (fds, cs3) : List ℕ × List Char :=
    match cs2 with
    | '.' :: r => takeDigits r
    | _ => ([], cs2)
  if ids.isEmpty && fds.isEmpty then none
  else
    match parseExpPart cs3 with
    | none => none
    | some (e, cs4) =>
      some (mkValue neg (natOfDigits (ids ++ fds)) fds.length e, cs4)

/-- The component slot selected by an optional trailing unit letter:
`0` = real part, `1`/`2`/`3` = the `i`/`j`/`k` components. -/
def unitSlot : List Char → ℕ × List Char
  | 'i' :: r => (1, r)
  | 'j' :: r => (2, r)
  | 'k' :: r => (3, r)
  | cs => (0, cs)

/-- Modelled from the spec: the term loop of the textual parser.  Terms are
`signed_number unit?`; after the first term every term must begin with an
explicit sign; no whitespace is permitted anywhere between terms; at most
one term per component (duplicates fail); an empty term list fails. -/
def parseTerms : ℕ → List Char → Bool →
    Option ℚ → Option ℚ → Option ℚ → Option ℚ → Except QErr Quat
  | _, [], _, w, x, y, z =>
    if w.isNone && x.isNone && y.isNone && z.isNone then .error .valueError
    else .ok ⟨w.getD 0, x.getD 0, y.getD 0, z.getD 0⟩
  | 0, _ :: _, _, _, _, _, _ => .error .valueError
  | fuel + 1, c :: cs, requireSign, w, x, y, z =>
    if requireSign && !(c == '+' || c == '-') then .error .valueError
    else
      match parseNumber (c :: cs) with
      | none => .error .valueError
      | some (v, rest) =>
        match unitSlot rest with
        | (0, rest2) =>
          match w with
          | none => parseTerms fuel rest2 true (some v) x y z
          | some _ => .error .valueError
        | (1, rest2) =>
          match x with
          | none => parseTerms fuel rest2 true w (some v) y z
          | some _ => .error .valueError
        | (2, rest2) =>
          match y with
          | none => parseTerms fuel rest2 true w x (some v) z
          | some _ => .error .valueError
        | (_, rest2) =>
          match z with
          | none => parseTerms fuel rest2 true w x y (some v)
          | some _ => .error .valueError

/-- Modelled from the spec: the textual quaternion parser.  Whitespace is
trimmed only at the outer edges and inside one optional surrounding pair of
parentheses; the remaining core is `term (sign term)*` with no internal
whitespace; malformed input fails with *ValueError*. -/
def parseQuat (s : String) : Except QErr Quat :=
  match stripOuter (trimWs s.data) with
  | none => .error .valueError
  | some core => parseTerms (core.length + 1) core false none none none none

/-- C4: the parser trims whitespace only at the outer edges and inside one
optional surrounding pair of parentheses —
`Quaternion("  (  1.2-3.4i+5.6j-7.8k  )  ")` yields `(1.2, −3.4, 5.6, −7.8)`
— and permits no internal whitespace: `"1.2 -3.4i"` fails with
*ValueError*. -/
theorem parser_trims_only_outer_whitespace :
    parseQuat "  (  1.2-3.4i+5.6j-7.8k  )  " = .ok ⟨1.2, -3.4, 5.6, -7.8⟩ ∧
    parseQuat "1.2 -3.4i" = .error .valueError := by
  constructor
  · have h : (⟨1.2, -3.4, 5.6, -7.8⟩ : Quat) =
        ⟨Rat.divInt 12 10, Rat.divInt (-34) 10, Rat.divInt 56 10, Rat.divInt (-78) 10⟩ := by
      norm_num [Quat.mk.injEq, Rat.divInt_eq_div]
    rw [h]
    rfl
  · rfl

/-- The modulus `2^61 − 1` of the host's numeric hashing scheme. -/
def P61 : ℕ := 2 ^ 61 - 1

/-- Fuelled modular exponentiation by squaring (64 fuel steps cover any
exponent below `2^64`). -/
def powModF : ℕ → ℕ → ℕ → ℕ → ℕ
  | 0, _, _, m => 1 % m
  | f + 1, b, e, m =>
    if e = 0 then 1 % m
    else
      let h := powModF f (b * b % m) (e / 2) m
      if e % 2 = 1 then b * h % m else h

/-- A magnitude with the sign of the given integer attached. -/
def signWith (n : ℤ) (m : ℕ) : ℤ := if n < 0 then -(m : ℤ) else (m : ℤ)

/-- The host's final fix-up: a hash of `−1` becomes `−2`. -/
def fixNegOne (z : ℤ) : ℤ := if z = -1 then -2 else z

/-- Modelled from the spec: the host's hash of a finite float, given by the
rational-value rule — for `p/q` in lowest terms the hash is
`±(|p| · q^(P−2)) mod P` with `P = 2^61 − 1`, and a result of `−1` is
replaced by `−2`. -/
def ratHash (r : ℚ) : ℤ :=
  if r.den % P61 = 0 then 314159
  else fixNegOne (signWith r.num
    (r.num.natAbs % P61 * powModF 64 (r.den % P61) (P61 - 2) P61 % P61))

/-- Modelled from the spec: the host's hash of an integer —
`±(|n| mod (2^61 − 1))`, with `−1` replaced by `−2`. -/
def pyHashInt (n : ℤ) : ℤ := fixNegOne (signWith n (n.natAbs % P61))

/-- An integer reinterpreted as an unsigned 64-bit word. -/
def toU64 (z : ℤ) : ℕ := (z % (2 ^ 64 : ℤ)).toNat

/-- An unsigned 64-bit word reinterpreted as a signed integer. -/
def u64ToInt (u : ℕ) : ℤ := if u < 2 ^ 63 then (u : ℤ) else (u : ℤ) - 2 ^ 64

/-- The host's multiplier pairing the hash of the imaginary part with the
hash of the real part of a complex number. -/
def HASH_IMAG : ℕ := 1000003

/-- Modelled from the spec: the host's hash of the complex number `a + b·i`
— `hash(a) + 1000003 · hash(b)` in wrapping unsigned 64-bit arithmetic,
reinterpreted as signed, with `−1` replaced by `−2`. -/
def cplxHash (a b : ℚ) : ℤ :=
  fixNegOne (u64ToInt ((toU64 (ratHash a) + HASH_IMAG * toU64 (ratHash b)) % 2 ^ 64))

/-- Modelled from the spec: the quaternion hash, absent from src/.  It
combines the component hashes with the powers of the complex multiplier
`hash(w) + 1000003·hash(y) + 1000003²·hash(x) + 1000003³·hash(z)` in
wrapping unsigned 64-bit arithmetic, so that it coincides with the host's
float hash on `(w,0,0,0)` and with the host's complex hash on
`(w,0,y,0)` as the spec's invariants require. -/
def qhash (q : Quat) : ℤ :=
  fixNegOne (u64ToInt ((toU64 (ratHash q.w) + HASH_IMAG * toU64 (ratHash q.y)
    + HASH_IMAG ^ 2 * toU64 (ratHash q.x) + HASH_IMAG ^ 3 * toU64 (ratHash q.z)) % 2 ^ 64))

theorem powModF_one (f e : ℕ) : powModF f 1 e P61 = 1 := by
  induction f generalizing e with
  | zero => norm_num [powModF, P61]
  | succ f ih =>
    have h1 : 1 % P61 = 1 := by norm_num [P61]
    have h2 : 1 * 1 % P61 = 1 := by norm_num [P61]
    rw [powModF, h2, ih]
    split_ifs <;> simp [h1, h2]

theorem fixNegOne_ne_negOne (z : ℤ) : fixNegOne z ≠ -1 := by
  unfold fixNegOne
  split_ifs <;> omega

theorem ratHash_ne_negOne (r : ℚ) : ratHash r ≠ -1 := by
  unfold ratHash
  split_ifs
  · omega
  · exact fixNegOne_ne_negOne _

theorem ratHash_bound (r : ℚ) : -(2 ^ 63 : ℤ) ≤ ratHash r ∧ ratHash r < 2 ^ 63 := by
  have hP : 0 < P61 := by norm_num [P61]
  have hm : r.num.natAbs % P61 * powModF 64 (r.den % P61) (P61 - 2) P61 % P61 < P61 :=
    Nat.mod_lt _ hP
  have hP2 : (P61 : ℤ) < 2 ^ 63 := by norm_num [P61]
  unfold ratHash fixNegOne signWith
  split_ifs <;> omega

theorem toU64_lt (z : ℤ) : toU64 z < 2 ^ 64 := by
  unfold toU64
  omega

theorem u64ToInt_toU64 {z : ℤ} (h1 : -(2 ^ 63) ≤ z) (h2 : z < 2 ^ 63) :
    u64ToInt (toU64 z) = z := by
  unfold u64ToInt toU64
  split_ifs <;> omega

theorem ratHash_zero : ratHash 0 = 0 := by
  have hd : (0 : ℚ).den = 1 := rfl
  have hn : (0 : ℚ).num = 0 := rfl
  unfold ratHash
  rw [hd, hn]
  have h1 : 1 % P61 = 1 := by norm_num [P61]
  rw [h1, if_neg (by norm_num : (1 : ℕ) ≠ 0)]
  simp [signWith, fixNegOne]

theorem toU64_zero : toU64 0 = 0 := rfl

theorem ratHash_den_one {r : ℚ} (h : r.den = 1) : ratHash r = pyHashInt r.num := by
  unfold ratHash pyHashInt
  rw [h]
  have h1 : 1 % P61 = 1 := by norm_num [P61]
  rw [h1, powModF_one, mul_one, Nat.mod_mod_of_dvd _ dvd_rfl]
  norm_num [P61]

theorem qhash_real {q : Quat} (hx : q.x = 0) (hy : q.y = 0) (hz : q.z = 0) :
    qhash q = ratHash q.w := by
  have hb := ratHash_bound q.w
  rw [qhash, hx, hy, hz, ratHash_zero, toU64_zero, mul_zero, mul_zero, mul_zero,
    add_zero, add_zero, add_zero,
    Nat.mod_eq_of_lt (toU64_lt _), u64ToInt_toU64 hb.1 hb.2]
  simp [fixNegOne, ratHash_ne_negOne q.w]

theorem ratHash_one : ratHash 1 = 1 := by
  rw [ratHash_den_one rfl]
  decide

theorem qhash_basis (c : ℚ) (hc : ratHash c = 1) :
    qhash ⟨c, 0, 0, 0⟩ = 1 ∧ qhash ⟨0, c, 0, 0⟩ = 1000006000009 ∧
    qhash ⟨0, 0, c, 0⟩ = 1000003 ∧ qhash ⟨0, 0, 0, c⟩ = 1000009000027000027 := by
  refine ⟨?_, ?_, ?_, ?_⟩ <;>
    · show fixNegOne _ = _
      rw [show (Quat.mk _ _ _ _).w = _ from rfl]
      simp only [hc, ratHash_zero, toU64_zero]
      decide

/-- C5: on real quaternions `(w,0,0,0)` the hash is the host's float hash
of `w` (and the host's integer hash when `w` is an exact integer); on
complex-subspace quaternions `(w,0,y,0)` it is the host's hash of the
complex number `w + y·i`; and the unit basis quaternions `1, i, j, k`
have pairwise distinct hashes. -/
theorem hash_consistency :
    (∀ q : Quat, q.x = 0 → q.y = 0 → q.z = 0 → qhash q = ratHash q.w) ∧
    (∀ q : Quat, q.x = 0 → q.y = 0 → q.z = 0 → q.w.den = 1 →
      qhash q = pyHashInt q.w.num) ∧
    (∀ q : Quat, q.x = 0 → q.z = 0 → qhash q = cplxHash q.w q.y) ∧
    (qhash qOne ≠ qhash qI ∧ qhash qOne ≠ qhash qJ ∧ qhash qOne ≠ qhash qK ∧
     qhash qI ≠ qhash qJ ∧ qhash qI ≠ qhash qK ∧ qhash qJ ≠ qhash qK) := by
  have hb := qhash_basis 1 ratHash_one
  refine ⟨fun q hx hy hz => qhash_real hx hy hz,
    fun q hx hy hz hden => ?_, fun q hx hz => ?_, ?_⟩
  · rw [qhash_real hx hy hz, ratHash_den_one hden]
  · rw [qhash, cplxHash, hx, hz, ratHash_zero, toU64_zero, mul_zero, mul_zero,
      add_zero, add_zero]
  · rw [show qOne = ⟨1, 0, 0, 0⟩ from rfl, show qI = ⟨0, 1, 0, 0⟩ from rfl,
      show qJ = ⟨0, 0, 1, 0⟩ from rfl, show qK = ⟨0, 0, 0, 1⟩ from rfl,
      hb.1, hb.2.1, hb.2.2.1, hb.2.2.2]
    refine ⟨by norm_num, by norm_num, by norm_num, by norm_num, by norm_num, by norm_num⟩

/-- Witness for C5 at the integer real quaternion `234` and the
complex-subspace quaternion `(3, 0, 5, 0)`. -/
theorem hash_consistency_witness :
    qhash ⟨234, 0, 0, 0⟩ = pyHashInt (234 : ℚ).num ∧
    qhash ⟨3, 0, 5, 0⟩ = cplxHash 3 5 :=
  ⟨hash_consistency.2.1 ⟨234, 0, 0, 0⟩ rfl rfl rfl (by decide),
   hash_consistency.2.2.1 ⟨3, 0, 5, 0⟩ rfl rfl⟩

noncomputable section

/-- Modelled from the spec: the quaternion value over exact reals, used for
the transcendental layer (IEEE rounding abstracted away). -/
structure QuatR where
  w : ℝ
  x : ℝ
  y : ℝ
  z : ℝ

/-- The zero quaternion of the real-valued model. -/
def qZeroR : QuatR := ⟨0, 0, 0, 0⟩

/-- The cyclic axis permutation `(x,y,z) ↦ (y,z,x)` (`qfoo` of
`src/test/test_02.py`: rotation of the axes by `+τ/3` about `(1,1,1)`). -/
def qfoo (q : QuatR) : QuatR := ⟨q.w, q.y, q.z, q.x⟩

/-- The cyclic axis permutation `(x,y,z) ↦ (z,x,y)` (`qbar` of
`src/test/test_02.py`). -/
def qbar (q : QuatR) : QuatR := ⟨q.w, q.z, q.x, q.y⟩

/-- Real scalar multiple of a quaternion. -/
def QuatR.smul (c : ℝ) (q : QuatR) : QuatR := ⟨c * q.w, c * q.x, c * q.y, c * q.z⟩

/-- `n = |v|`, the norm of the vector part. -/
def QuatR.vnorm (q : QuatR) : ℝ := Real.sqrt (q.x ^ 2 + q.y ^ 2 + q.z ^ 2)

/-- Modelled from the spec (section 4.D): lift a complex-plane function `g`
to quaternions — reduce to `z = w + i·n` with `n = |v|`, apply `g`, and map
`a + i·b` back to `(a, b·n̂)`, where `n̂ = v/n` when `n > 0` and the `j`
axis when `n = 0`. -/
def axialLift (g : ℝ → ℝ → ℝ × ℝ) (q : QuatR) : QuatR :=
  if q.vnorm = 0 then
    ⟨(g q.w q.vnorm).1, 0, (g q.w q.vnorm).2, 0⟩
  else
    ⟨(g q.w q.vnorm).1, (g q.w q.vnorm).2 * q.x / q.vnorm,
     (g q.w q.vnorm).2 * q.y / q.vnorm, (g q.w q.vnorm).2 * q.z / q.vnorm⟩

/-- Modelled from the spec: `exp` on the `(1, n̂)` plane,
`exp(w)·(cos n + i sin n)`. -/
def gexp (w n : ℝ) : ℝ × ℝ := (Real.exp w * Real.cos n, Real.exp w * Real.sin n)

/-- Modelled from the spec: `log` on the `(1, n̂)` plane,
`(ln |Q|, acos(w/|Q|))` with `|Q| = sqrt(w² + n²)`. -/
def glog (w n : ℝ) : ℝ × ℝ :=
  (Real.log (Real.sqrt (w ^ 2 + n ^ 2)),
   Real.arccos (w / Real.sqrt (w ^ 2 + n ^ 2)))

/-- A complex function in `(re, im)` pair form on the `(1, n̂)` plane. -/
def pairOf (f : ℂ → ℂ) (w n : ℝ) : ℝ × ℝ := ((f ⟨w, n⟩).re, (f ⟨w, n⟩).im)

/-- Modelled from the spec: `exp(Q) = exp(w)·(cos n + n̂ sin n)`. -/
def qexp : QuatR → QuatR := axialLift gexp

/-- Modelled from the spec: `log(Q) = (ln|Q|, n̂·acos(w/|Q|))`. -/
def qlog : QuatR → QuatR := axialLift glog

/-- Modelled from the spec: `log10(Q) = log(Q) / ln(10)`. -/
def qlog10 (q : QuatR) : QuatR := QuatR.smul (Real.log 10)⁻¹ (qlog q)

/-- Modelled from the spec: `sqrt(Q) = exp(log(Q)/2)`, with `sqrt(0) = 0`. -/
def qsqrtR (q : QuatR) : QuatR :=
  haveI := Classical.propDecidable (q = qZeroR)
  if q = qZeroR then qZeroR else qexp (QuatR.smul (1 / 2) (qlog q))

/-- Modelled from the spec: `sin` lifted from the complex function. -/
def qsin : QuatR → QuatR := axialLift (pairOf Complex.sin)

/-- Modelled from the spec: `cos` lifted from the complex function. -/
def qcos : QuatR → QuatR := axialLift (pairOf Complex.cos)

/-- Modelled from the spec: `tan` lifted from the complex function. -/
def qtan : QuatR → QuatR := axialLift (pairOf Complex.tan)

/-- Modelled from the spec: `sinh` lifted from the complex function. -/
def qsinh : QuatR → QuatR := axialLift (pairOf Complex.sinh)

/-- Modelled from the spec: `cosh` lifted from the complex function. -/
def qcosh : QuatR → QuatR := axialLift (pairOf Complex.cosh)

/-- Modelled from the spec: `tanh` lifted from the complex function. -/
def qtanh : QuatR → QuatR := axialLift (pairOf Complex.tanh)

/-- The sign factor carrying the complex branch convention of the host's
inverse functions: `−1` for negative arguments and `+1` otherwise — a real
zero stands for the host's `+0.0`, whose sign is `+1`, so that values on
the branch cuts take the upper-side convention. -/
def sgn (t : ℝ) : ℝ := if t < 0 then -1 else 1

/-- `α(x, n) = (√((x+1)² + n²) + √((x−1)² + n²))/2` of the standard
principal-branch formulas for the complex inverse trigonometric
functions. -/
def aAux (x n : ℝ) : ℝ :=
  (Real.sqrt ((x + 1) ^ 2 + n ^ 2) + Real.sqrt ((x - 1) ^ 2 + n ^ 2)) / 2

/-- `β(x, n) = (√((x+1)² + n²) − √((x−1)² + n²))/2`. -/
def bAux (x n : ℝ) : ℝ :=
  (Real.sqrt ((x + 1) ^ 2 + n ^ 2) - Real.sqrt ((x - 1) ^ 2 + n ^ 2)) / 2

/-- Modelled from the spec: the host complex library's `asin` in pair form,
by the standard principal-branch formulas
`re = arcsin β`, `im = sign(n)·ln(α + √(α² − 1))`; on the cuts
(`n = 0`, `|x| > 1`) the `+0.0` sign convention gives the upper-side
value `im = +acosh|x|`, as the host does (see `gasin_real_ge_one`). -/
def gasin (x n : ℝ) : ℝ × ℝ :=
  (Real.arcsin (bAux x n),
   sgn n * Real.log (aAux x n + Real.sqrt ((aAux x n) ^ 2 - 1)))

/-- Modelled from the spec: the host complex library's `acos` in pair form,
`re = arccos β`, `im = −sign(n)·ln(α + √(α² − 1))`; on the cuts the
`+0.0` convention gives `im = −acosh|x|` (see `gacos_real_ge_one`). -/
def gacos (x n : ℝ) : ℝ × ℝ :=
  (Real.arccos (bAux x n),
   -(sgn n) * Real.log (aAux x n + Real.sqrt ((aAux x n) ^ 2 - 1)))

/-- Modelled from the spec: the host complex library's `atan` in pair form,
`re = arg(1 − x² − n², 2x)/2`, `im = ln((x² + (n+1)²)/(x² + (n−1)²))/4`. -/
def gatan (x n : ℝ) : ℝ × ℝ :=
  (Complex.arg ⟨1 - x ^ 2 - n ^ 2, 2 * x⟩ / 2,
   Real.log ((x ^ 2 + (n + 1) ^ 2) / (x ^ 2 + (n - 1) ^ 2)) / 4)

/-- Modelled from the spec: the host complex library's `asinh`, through
`asinh(z) = −i·asin(i·z)`. -/
def gasinh (x n : ℝ) : ℝ × ℝ := ((gasin (-n) x).2, -(gasin (-n) x).1)

/-- Modelled from the spec: the host complex library's `acosh`, through
`acosh(z) = ±i·acos(z)` with the sign chosen so that the real part is
nonnegative; on real arguments `x ≥ 1` it is `(ln(x + √(x² − 1)), 0)`,
the real `acosh` (see `gacosh_real_ge_one` and `gacosh_two`). -/
def gacosh (x n : ℝ) : ℝ × ℝ :=
  if n < 0 then ((gacos x n).2, -(gacos x n).1)
  else (-(gacos x n).2, (gacos x n).1)

/-- Modelled from the spec: the host complex library's `atanh`, from the
principal branch `atanh(z) = Log((1+z)/(1−z))/2` —
`re = ln(((1+x)² + n²)/((1−x)² + n²))/4`, `im = arg(1 − x² − n², 2n)/2`;
at `n = 0`, `x > 1` the `arg` convention gives `im = +π/2`, the host's
value on the upper side of the cut. -/
def gatanh (x n : ℝ) : ℝ × ℝ :=
  (Real.log (((1 + x) ^ 2 + n ^ 2) / ((1 - x) ^ 2 + n ^ 2)) / 4,
   Complex.arg ⟨1 - x ^ 2 - n ^ 2, 2 * n⟩ / 2)

/-- Modelled from the spec: `asin` lifted from the complex function. -/
def qasin : QuatR → QuatR := axialLift gasin

/-- Modelled from the spec: `acos` lifted from the complex function. -/
def qacos : QuatR → QuatR := axialLift gacos

/-- Modelled from the spec: `atan` lifted from the complex function. -/
def qatan : QuatR → QuatR := axialLift gatan

/-- Modelled from the spec: `asinh` lifted from the complex function. -/
def qasinh : QuatR → QuatR := axialLift gasinh

/-- Modelled from the spec: `acosh` lifted from the complex function. -/
def qacosh : QuatR → QuatR := axialLift gacosh

/-- Modelled from the spec: `atanh` lifted from the complex function. -/
def qatanh : QuatR → QuatR := axialLift gatanh

theorem vnorm_qfoo (q : QuatR) : (qfoo q).vnorm = q.vnorm := by
  unfold QuatR.vnorm qfoo
  congr 1
  ring

theorem vnorm_qbar (q : QuatR) : (qbar q).vnorm = q.vnorm := by
  unfold QuatR.vnorm qbar
  congr 1
  ring

theorem vnorm_eq_zero (q : QuatR) :
    q.vnorm = 0 ↔ q.x = 0 ∧ q.y = 0 ∧ q.z = 0 := by
  rw [QuatR.vnorm, Real.sqrt_eq_zero']
  constructor
  · intro h
    have hx := sq_nonneg q.x
    have hy := sq_nonneg q.y
    have hz := sq_nonneg q.z
    refine ⟨?_, ?_, ?_⟩ <;> nlinarith
  · rintro ⟨h1, h2, h3⟩
    simp [h1, h2, h3]

theorem axialLift_qfoo (g : ℝ → ℝ → ℝ × ℝ) (q : QuatR) (hn : q.vnorm ≠ 0) :
    axialLift g (qfoo q) = qfoo (axialLift g q) := by
  rw [axialLift, axialLift, vnorm_qfoo, if_neg hn, if_neg hn]
  rfl

theorem axialLift_qbar (g : ℝ → ℝ → ℝ × ℝ) (q : QuatR) (hn : q.vnorm ≠ 0) :
    axialLift g (qbar q) = qbar (axialLift g q) := by
  rw [axialLift, axialLift, vnorm_qbar, if_neg hn, if_neg hn]
  rfl

theorem qfoo_smul (c : ℝ) (q : QuatR) :
    qfoo (QuatR.smul c q) = QuatR.smul c (qfoo q) := rfl

theorem qbar_smul (c : ℝ) (q : QuatR) :
    qbar (QuatR.smul c q) = QuatR.smul c (qbar q) := rfl

theorem vnorm_smul (c : ℝ) (q : QuatR) :
    (QuatR.smul c q).vnorm = |c| * q.vnorm := by
  unfold QuatR.vnorm QuatR.smul
  rw [show (c * q.x) ^ 2 + (c * q.y) ^ 2 + (c * q.z) ^ 2
      = c ^ 2 * (q.x ^ 2 + q.y ^ 2 + q.z ^ 2) from by ring,
    Real.sqrt_mul (sq_nonneg c), Real.sqrt_sq_eq_abs]

theorem ne_zero_of_vne {q : QuatR} (hv : ¬(q.x = 0 ∧ q.y = 0 ∧ q.z = 0)) :
    q ≠ qZeroR := by
  intro h
  rw [h] at hv
  exact hv ⟨rfl, rfl, rfl⟩

theorem qlog_vnorm_ne {q : QuatR} (hn : q.vnorm ≠ 0) : (qlog q).vnorm ≠ 0 := by
  have hnpos : 0 < q.vnorm := lt_of_le_of_ne (Real.sqrt_nonneg _) (Ne.symm hn)
  have hs : 0 < Real.sqrt (q.w ^ 2 + q.vnorm ^ 2) :=
    Real.sqrt_pos.2 (by nlinarith)
  have hws : q.w < Real.sqrt (q.w ^ 2 + q.vnorm ^ 2) := by
    rcases le_or_lt q.w 0 with h | h
    · linarith
    · calc q.w = Real.sqrt (q.w ^ 2) := (Real.sqrt_sq h.le).symm
        _ < _ := Real.sqrt_lt_sqrt (sq_nonneg _) (by nlinarith)
  have hb : 0 < Real.arccos (q.w / Real.sqrt (q.w ^ 2 + q.vnorm ^ 2)) :=
    Real.arccos_pos.2 ((div_lt_one hs).2 hws)
  have hv : ¬(q.x = 0 ∧ q.y = 0 ∧ q.z = 0) :=
    fun h => hn ((vnorm_eq_zero q).2 h)
  rw [qlog, axialLift, if_neg hn, Ne, vnorm_eq_zero]
  simp only [glog]
  rintro ⟨h1, h2, h3⟩
  apply hv
  refine ⟨?_, ?_, ?_⟩
  · rcases mul_eq_zero.1 ((div_eq_zero_iff.1 h1).resolve_right hn) with h | h
    · exact absurd h (ne_of_gt hb)
    · exact h
  · rcases mul_eq_zero.1 ((div_eq_zero_iff.1 h2).resolve_right hn) with h | h
    · exact absurd h (ne_of_gt hb)
    · exact h
  · rcases mul_eq_zero.1 ((div_eq_zero_iff.1 h3).resolve_right hn) with h | h
    · exact absurd h (ne_of_gt hb)
    · exact h

theorem qsqrtR_qfoo {q : QuatR} (hn : q.vnorm ≠ 0) :
    qsqrtR (qfoo q) = qfoo (qsqrtR q) := by
  have hv : ¬(q.x = 0 ∧ q.y = 0 ∧ q.z = 0) := fun h => hn ((vnorm_eq_zero q).2 h)
  have h1 : q ≠ qZeroR := ne_zero_of_vne hv
  have h2 : qfoo q ≠ qZeroR := ne_zero_of_vne (by
    show ¬(q.y = 0 ∧ q.z = 0 ∧ q.x = 0)
    tauto)
  have h3 : (QuatR.smul (1 / 2) (qlog q)).vnorm ≠ 0 := by
    rw [vnorm_smul]
    exact mul_ne_zero (by norm_num) (qlog_vnorm_ne hn)
  rw [qsqrtR, qsqrtR, if_neg h2, if_neg h1,
    show qlog (qfoo q) = qfoo (qlog q) from axialLift_qfoo glog q hn,
    show QuatR.smul (1 / 2) (qfoo (qlog q)) = qfoo (QuatR.smul (1 / 2) (qlog q)) from rfl]
  exact axialLift_qfoo gexp _ h3

theorem qsqrtR_qbar {q : QuatR} (hn : q.vnorm ≠ 0) :
    qsqrtR (qbar q) = qbar (qsqrtR q) := by
  have hv : ¬(q.x = 0 ∧ q.y = 0 ∧ q.z = 0) := fun h => hn ((vnorm_eq_zero q).2 h)
  have h1 : q ≠ qZeroR := ne_zero_of_vne hv
  have h2 : qbar q ≠ qZeroR := ne_zero_of_vne (by
    show ¬(q.z = 0 ∧ q.x = 0 ∧ q.y = 0)
    tauto)
  have h3 : (QuatR.smul (1 / 2) (qlog q)).vnorm ≠ 0 := by
    rw [vnorm_smul]
    exact mul_ne_zero (by norm_num) (qlog_vnorm_ne hn)
  rw [qsqrtR, qsqrtR, if_neg h2, if_neg h1,
    show qlog (qbar q) = qbar (qlog q) from axialLift_qbar glog q hn,
    show QuatR.smul (1 / 2) (qbar (qlog q)) = qbar (QuatR.smul (1 / 2) (qlog q)) from rfl]
  exact axialLift_qbar gexp _ h3

/-- C6 counterexample: the claim fails at zero vector part — for `f = log`
and `Q = (−1,0,0,0)` (in `log`'s domain), `log(Q) = (0,0,π,0)` lies on the
default `j` axis, which the cyclic permutation moves, so
`f(P(π)·Q) ≠ P(π)·f(Q)`. -/
theorem transcendental_perm_commute_cex :
    qlog (qfoo ⟨-1, 0, 0, 0⟩) ≠ qfoo (qlog ⟨-1, 0, 0, 0⟩) := by
  have hv : (QuatR.mk (-1) 0 0 0).vnorm = 0 := by
    simp [QuatR.vnorm]
  have hQ : qlog ⟨-1, 0, 0, 0⟩ = ⟨0, 0, Real.pi, 0⟩ := by
    norm_num [qlog, axialLift, hv, glog, QuatR.mk.injEq,
      Real.sqrt_one, Real.log_one, Real.arccos_neg_one]
  rw [show qfoo ⟨-1, 0, 0, 0⟩ = (⟨-1, 0, 0, 0⟩ : QuatR) from rfl, hQ]
  intro h
  exact Real.pi_ne_zero (congrArg QuatR.y h)

/-- C6 amended: every supported unary transcendental function commutes with
the cyclic permutations of `(x, y, z)` on every quaternion whose vector
part is nonzero (at vector-zero inputs whose image leaves the real axis
the identity fails, because the default axis `j` is not
permutation-invariant). -/
theorem transcendental_perm_commute_nonzero_vector (q : QuatR)
    (hv : ¬(q.x = 0 ∧ q.y = 0 ∧ q.z = 0)) :
    (qexp (qfoo q) = qfoo (qexp q) ∧ qexp (qbar q) = qbar (qexp q)) ∧
    (qlog (qfoo q) = qfoo (qlog q) ∧ qlog (qbar q) = qbar (qlog q)) ∧
    (qlog10 (qfoo q) = qfoo (qlog10 q) ∧ qlog10 (qbar q) = qbar (qlog10 q)) ∧
    (qsqrtR (qfoo q) = qfoo (qsqrtR q) ∧ qsqrtR (qbar q) = qbar (qsqrtR q)) ∧
    (qsin (qfoo q) = qfoo (qsin q) ∧ qsin (qbar q) = qbar (qsin q)) ∧
    (qcos (qfoo q) = qfoo (qcos q) ∧ qcos (qbar q) = qbar (qcos q)) ∧
    (qtan (qfoo q) = qfoo (qtan q) ∧ qtan (qbar q) = qbar (qtan q)) ∧
    (qsinh (qfoo q) = qfoo (qsinh q) ∧ qsinh (qbar q) = qbar (qsinh q)) ∧
    (qcosh (qfoo q) = qfoo (qcosh q) ∧ qcosh (qbar q) = qbar (qcosh q)) ∧
    (qtanh (qfoo q) = qfoo (qtanh q) ∧ qtanh (qbar q) = qbar (qtanh q)) ∧
    (qasin (qfoo q) = qfoo (qasin q) ∧ qasin (qbar q) = qbar (qasin q)) ∧
    (qacos (qfoo q) = qfoo (qacos q) ∧ qacos (qbar q) = qbar (qacos q)) ∧
    (qatan (qfoo q) = qfoo (qatan q) ∧ qatan (qbar q) = qbar (qatan q)) ∧
    (qasinh (qfoo q) = qfoo (qasinh q) ∧ qasinh (qbar q) = qbar (qasinh q)) ∧
    (qacosh (qfoo q) = qfoo (qacosh q) ∧ qacosh (qbar q) = qbar (qacosh q)) ∧
    (qatanh (qfoo q) = qfoo (qatanh q) ∧ qatanh (qbar q) = qbar (qatanh q)) := by
  have hn : q.vnorm ≠ 0 := fun h => hv ((vnorm_eq_zero q).1 h)
  refine ⟨⟨axialLift_qfoo _ _ hn, axialLift_qbar _ _ hn⟩,
    ⟨axialLift_qfoo _ _ hn, axialLift_qbar _ _ hn⟩, ⟨?_, ?_⟩,
    ⟨qsqrtR_qfoo hn, qsqrtR_qbar hn⟩,
    ⟨axialLift_qfoo _ _ hn, axialLift_qbar _ _ hn⟩,
    ⟨axialLift_qfoo _ _ hn, axialLift_qbar _ _ hn⟩,
    ⟨axialLift_qfoo _ _ hn, axialLift_qbar _ _ hn⟩,
    ⟨axialLift_qfoo _ _ hn, axialLift_qbar _ _ hn⟩,
    ⟨axialLift_qfoo _ _ hn, axialLift_qbar _ _ hn⟩,
    ⟨axialLift_qfoo _ _ hn, axialLift_qbar _ _ hn⟩,
    ⟨axialLift_qfoo _ _ hn, axialLift_qbar _ _ hn⟩,
    ⟨axialLift_qfoo _ _ hn, axialLift_qbar _ _ hn⟩,
    ⟨axialLift_qfoo _ _ hn, axialLift_qbar _ _ hn⟩,
    ⟨axialLift_qfoo _ _ hn, axialLift_qbar _ _ hn⟩,
    ⟨axialLift_qfoo _ _ hn, axialLift_qbar _ _ hn⟩,
    ⟨axialLift_qfoo _ _ hn, axialLift_qbar _ _ hn⟩⟩
  · rw [qlog10, qlog10,
      show qlog (qfoo q) = qfoo (qlog q) from axialLift_qfoo glog q hn, qfoo_smul]
  · rw [qlog10, qlog10,
      show qlog (qbar q) = qbar (qlog q) from axialLift_qbar glog q hn, qbar_smul]

/-- Witness for the amended C6 at `Q = i` and `f = exp`. -/
theorem transcendental_perm_commute_witness :
    qexp (qfoo ⟨0, 1, 0, 0⟩) = qfoo (qexp ⟨0, 1, 0, 0⟩) :=
  ((transcendental_perm_commute_nonzero_vector ⟨0, 1, 0, 0⟩
    (fun h => one_ne_zero h.1)).1).1

/-- The complex number `a + b·i` re-embedded as the quaternion
`(a, 0, b, 0)`. -/
def embedC (c : ℂ) : QuatR := ⟨c.re, 0, c.im, 0⟩

theorem vnorm_plane (w y : ℝ) : (QuatR.mk w 0 y 0).vnorm = |y| := by
  simp [QuatR.vnorm, Real.sqrt_sq_eq_abs]

theorem axialLift_complex_plane (g F : ℝ → ℝ → ℝ × ℝ)
    (hagree : ∀ w n, 0 ≤ n → g w n = F w n)
    (hconj : ∀ w y, y < 0 → F w y = ((F w (-y)).1, -(F w (-y)).2))
    (w y : ℝ) :
    axialLift g ⟨w, 0, y, 0⟩ = ⟨(F w y).1, 0, (F w y).2, 0⟩ := by
  rcases lt_trichotomy y 0 with hy | hy | hy
  · have hyne : y ≠ 0 := ne_of_lt hy
    have hne : (QuatR.mk w 0 y 0).vnorm ≠ 0 := by
      rw [vnorm_plane]; simpa using hyne
    rw [axialLift, if_neg hne, vnorm_plane, abs_of_neg hy,
      hagree w (-y) (by linarith), hconj w y hy]
    have hd : (F w (-y)).2 * y / -y = -(F w (-y)).2 := by
      rw [div_neg, mul_div_assoc, div_self hyne, mul_one]
    simp [QuatR.mk.injEq, hd]
  · subst hy
    have h0 : (QuatR.mk w 0 0 0).vnorm = 0 := by rw [vnorm_plane]; simp
    rw [axialLift, if_pos h0, h0, hagree w 0 le_rfl]
  · have hne : (QuatR.mk w 0 y 0).vnorm ≠ 0 := by
      rw [vnorm_plane]; simpa using ne_of_gt hy
    rw [axialLift, if_neg hne, vnorm_plane, abs_of_pos hy, hagree w y hy.le]
    have hd : (F w y).2 * y / y = (F w y).2 := by
      rw [mul_div_assoc, div_self (ne_of_gt hy), mul_one]
    simp [QuatR.mk.injEq, hd]

theorem axialLift_complex_plane_restricted (g F : ℝ → ℝ → ℝ × ℝ)
    (hagree : ∀ w n, 0 ≤ n → (w ≠ 0 ∨ n ≠ 0) → g w n = F w n)
    (hconj : ∀ w y, y < 0 → F w y = ((F w (-y)).1, -(F w (-y)).2))
    (w y : ℝ) (hwy : w ≠ 0 ∨ y ≠ 0) :
    axialLift g ⟨w, 0, y, 0⟩ = ⟨(F w y).1, 0, (F w y).2, 0⟩ := by
  rcases lt_trichotomy y 0 with hy | hy | hy
  · have hyne : y ≠ 0 := ne_of_lt hy
    have hne : (QuatR.mk w 0 y 0).vnorm ≠ 0 := by
      rw [vnorm_plane]; simpa using hyne
    rw [axialLift, if_neg hne, vnorm_plane, abs_of_neg hy,
      hagree w (-y) (by linarith) (Or.inr (by simpa using hyne)),
      hconj w y hy]
    have hd : (F w (-y)).2 * y / -y = -(F w (-y)).2 := by
      rw [div_neg, mul_div_assoc, div_self hyne, mul_one]
    simp [QuatR.mk.injEq, hd]
  · subst hy
    have h0 : (QuatR.mk w 0 0 0).vnorm = 0 := by rw [vnorm_plane]; simp
    rw [axialLift, if_pos h0, h0,
      hagree w 0 le_rfl (Or.inl (hwy.resolve_right (by simp)))]
  · have hne : (QuatR.mk w 0 y 0).vnorm ≠ 0 := by
      rw [vnorm_plane]; simpa using ne_of_gt hy
    rw [axialLift, if_neg hne, vnorm_plane, abs_of_pos hy,
      hagree w y hy.le (Or.inr (ne_of_gt hy))]
    have hd : (F w y).2 * y / y = (F w y).2 := by
      rw [mul_div_assoc, div_self (ne_of_gt hy), mul_one]
    simp [QuatR.mk.injEq, hd]

theorem pairOf_conj {Cf : ℂ → ℂ}
    (hCf : ∀ z : ℂ, 0 < z.im → Cf ((starRingEnd ℂ) z) = (starRingEnd ℂ) (Cf z)) :
    ∀ w y : ℝ, y < 0 →
      pairOf Cf w y = ((pairOf Cf w (-y)).1, -(pairOf Cf w (-y)).2) := by
  intro w y hy
  have hz : (⟨w, y⟩ : ℂ) = (starRingEnd ℂ) ⟨w, -y⟩ := by
    apply Complex.ext <;> simp
  simp only [pairOf]
  rw [hz, hCf ⟨w, -y⟩ (neg_pos.2 hy)]
  simp

theorem aAux_neg_snd (x n : ℝ) : aAux x (-n) = aAux x n := by
  simp [aAux, neg_sq]

theorem bAux_neg_snd (x n : ℝ) : bAux x (-n) = bAux x n := by
  simp [bAux, neg_sq]

theorem aAux_neg_fst (x n : ℝ) : aAux (-x) n = aAux x n := by
  unfold aAux
  rw [show (-x + 1) ^ 2 = (x - 1) ^ 2 from by ring,
    show (-x - 1) ^ 2 = (x + 1) ^ 2 from by ring]
  ring

theorem bAux_neg_fst (x n : ℝ) : bAux (-x) n = -bAux x n := by
  unfold bAux
  rw [show (-x + 1) ^ 2 = (x - 1) ^ 2 from by ring,
    show (-x - 1) ^ 2 = (x + 1) ^ 2 from by ring]
  ring

theorem sgn_of_neg {t : ℝ} (h : t < 0) : sgn t = -1 := if_pos h

theorem sgn_of_pos {t : ℝ} (h : 0 < t) : sgn t = 1 := by
  rw [sgn, if_neg (not_lt.2 h.le)]

theorem sgn_zero : sgn 0 = 1 := if_neg (lt_irrefl 0)

theorem log_div_antisymm (a b : ℝ) : Real.log (a / b) = -Real.log (b / a) := by
  rcases eq_or_ne a 0 with ha | ha
  · simp [ha]
  rcases eq_or_ne b 0 with hb | hb
  · simp [hb]
  rw [Real.log_div ha hb, Real.log_div hb ha]
  ring

theorem arg_mk_neg {c d : ℝ} (hd : d ≠ 0) :
    Complex.arg ⟨c, -d⟩ = -Complex.arg ⟨c, d⟩ := by
  have hz : (⟨c, -d⟩ : ℂ) = (starRingEnd ℂ) ⟨c, d⟩ := by
    apply Complex.ext <;> simp
  rw [hz, Complex.arg_conj,
    if_neg (fun h => hd (Complex.arg_eq_pi_iff.1 h).2)]

theorem gasin_conj (w y : ℝ) (hy : y < 0) :
    gasin w y = ((gasin w (-y)).1, -(gasin w (-y)).2) := by
  unfold gasin
  simp only [bAux_neg_snd, aAux_neg_snd, sgn_of_neg hy, sgn_of_pos (neg_pos.2 hy)]
  norm_num

theorem gacos_conj (w y : ℝ) (hy : y < 0) :
    gacos w y = ((gacos w (-y)).1, -(gacos w (-y)).2) := by
  unfold gacos
  simp only [bAux_neg_snd, aAux_neg_snd, sgn_of_neg hy, sgn_of_pos (neg_pos.2 hy)]
  norm_num

theorem gatan_conj (w y : ℝ) (hy : y < 0) :
    gatan w y = ((gatan w (-y)).1, -(gatan w (-y)).2) := by
  unfold gatan
  rw [Prod.ext_iff]
  constructor
  · simp [neg_sq]
  · show Real.log ((w ^ 2 + (y + 1) ^ 2) / (w ^ 2 + (y - 1) ^ 2)) / 4
      = -(Real.log ((w ^ 2 + (-y + 1) ^ 2) / (w ^ 2 + (-y - 1) ^ 2)) / 4)
    rw [show (-y + 1) ^ 2 = (y - 1) ^ 2 from by ring,
      show (-y - 1) ^ 2 = (y + 1) ^ 2 from by ring,
      log_div_antisymm]
    ring

theorem gasin_fst_odd (a b : ℝ) : (gasin (-a) b).1 = -(gasin a b).1 := by
  unfold gasin
  rw [show ((Real.arcsin (bAux (-a) b), sgn b * Real.log (aAux (-a) b
      + Real.sqrt ((aAux (-a) b) ^ 2 - 1)))).1 = Real.arcsin (bAux (-a) b) from rfl,
    bAux_neg_fst, Real.arcsin_neg]

theorem gasin_snd_even (a b : ℝ) : (gasin (-a) b).2 = (gasin a b).2 := by
  unfold gasin
  rw [show ((Real.arcsin (bAux (-a) b), sgn b * Real.log (aAux (-a) b
      + Real.sqrt ((aAux (-a) b) ^ 2 - 1)))).2 = sgn b * Real.log (aAux (-a) b
      + Real.sqrt ((aAux (-a) b) ^ 2 - 1)) from rfl,
    aAux_neg_fst]

theorem gasinh_conj (w y : ℝ) (hy : y < 0) :
    gasinh w y = ((gasinh w (-y)).1, -(gasinh w (-y)).2) := by
  unfold gasinh
  rw [Prod.ext_iff]
  constructor
  · show (gasin (-y) w).2 = (gasin (- -y) w).2
    rw [neg_neg, show (gasin (-y) w).2 = (gasin y w).2 from gasin_snd_even y w]
  · show -(gasin (-y) w).1 = -(-(gasin (- -y) w).1)
    rw [neg_neg, gasin_fst_odd]
    ring

theorem gatanh_conj (w y : ℝ) (hy : y < 0) :
    gatanh w y = ((gatanh w (-y)).1, -(gatanh w (-y)).2) := by
  unfold gatanh
  rw [Prod.ext_iff]
  constructor
  · show Real.log (((1 + w) ^ 2 + y ^ 2) / ((1 - w) ^ 2 + y ^ 2)) / 4
      = Real.log (((1 + w) ^ 2 + (-y) ^ 2) / ((1 - w) ^ 2 + (-y) ^ 2)) / 4
    rw [neg_sq]
  · show Complex.arg ⟨1 - w ^ 2 - y ^ 2, 2 * y⟩ / 2
      = -(Complex.arg ⟨1 - w ^ 2 - (-y) ^ 2, 2 * -y⟩ / 2)
    rw [neg_sq, show (2 : ℝ) * y = -(2 * -y) from by ring,
      arg_mk_neg (mul_ne_zero two_ne_zero (neg_ne_zero.2 (ne_of_lt hy)))]
    ring

theorem gacosh_conj (w y : ℝ) (hy : y < 0) :
    gacosh w y = ((gacosh w (-y)).1, -(gacosh w (-y)).2) := by
  have h := gacos_conj w y hy
  rw [gacosh, gacosh, if_pos hy, if_neg (not_lt.2 (neg_pos.2 hy).le), h]

theorem aAux_real {x : ℝ} (h1 : -1 ≤ x) (h2 : x ≤ 1) : aAux x 0 = 1 := by
  unfold aAux
  rw [show ((x + 1) ^ 2 + (0 : ℝ) ^ 2) = (x + 1) ^ 2 from by ring,
    show ((x - 1) ^ 2 + (0 : ℝ) ^ 2) = (x - 1) ^ 2 from by ring,
    Real.sqrt_sq_eq_abs, Real.sqrt_sq_eq_abs,
    abs_of_nonneg (by linarith : (0 : ℝ) ≤ x + 1),
    abs_of_nonpos (by linarith : x - 1 ≤ 0)]
  ring

theorem bAux_real {x : ℝ} (h1 : -1 ≤ x) (h2 : x ≤ 1) : bAux x 0 = x := by
  unfold bAux
  rw [show ((x + 1) ^ 2 + (0 : ℝ) ^ 2) = (x + 1) ^ 2 from by ring,
    show ((x - 1) ^ 2 + (0 : ℝ) ^ 2) = (x - 1) ^ 2 from by ring,
    Real.sqrt_sq_eq_abs, Real.sqrt_sq_eq_abs,
    abs_of_nonneg (by linarith : (0 : ℝ) ≤ x + 1),
    abs_of_nonpos (by linarith : x - 1 ≤ 0)]
  ring

theorem aAux_ge_one {x : ℝ} (h : 1 ≤ x) : aAux x 0 = x := by
  unfold aAux
  rw [show ((x + 1) ^ 2 + (0 : ℝ) ^ 2) = (x + 1) ^ 2 from by ring,
    show ((x - 1) ^ 2 + (0 : ℝ) ^ 2) = (x - 1) ^ 2 from by ring,
    Real.sqrt_sq_eq_abs, Real.sqrt_sq_eq_abs,
    abs_of_nonneg (by linarith : (0 : ℝ) ≤ x + 1),
    abs_of_nonneg (by linarith : (0 : ℝ) ≤ x - 1)]
  ring

theorem bAux_ge_one {x : ℝ} (h : 1 ≤ x) : bAux x 0 = 1 := by
  unfold bAux
  rw [show ((x + 1) ^ 2 + (0 : ℝ) ^ 2) = (x + 1) ^ 2 from by ring,
    show ((x - 1) ^ 2 + (0 : ℝ) ^ 2) = (x - 1) ^ 2 from by ring,
    Real.sqrt_sq_eq_abs, Real.sqrt_sq_eq_abs,
    abs_of_nonneg (by linarith : (0 : ℝ) ≤ x + 1),
    abs_of_nonneg (by linarith : (0 : ℝ) ≤ x - 1)]
  ring

theorem gasin_real {x : ℝ} (h1 : -1 ≤ x) (h2 : x ≤ 1) :
    gasin x 0 = (Real.arcsin x, 0) := by
  unfold gasin
  rw [bAux_real h1 h2, aAux_real h1 h2]
  norm_num [Real.sqrt_zero, Real.log_one]

theorem gasin_real_ge_one {x : ℝ} (h : 1 ≤ x) :
    gasin x 0 = (Real.pi / 2, Real.log (x + Real.sqrt (x ^ 2 - 1))) := by
  unfold gasin
  rw [bAux_ge_one h, aAux_ge_one h, Real.arcsin_one, sgn_zero, one_mul]

theorem gacos_real_ge_one {x : ℝ} (h : 1 ≤ x) :
    gacos x 0 = (0, -Real.log (x + Real.sqrt (x ^ 2 - 1))) := by
  unfold gacos
  rw [bAux_ge_one h, aAux_ge_one h, Real.arccos_one, sgn_zero]
  norm_num

theorem gacosh_real_ge_one {x : ℝ} (h : 1 ≤ x) :
    gacosh x 0 = (Real.log (x + Real.sqrt (x ^ 2 - 1)), 0) := by
  rw [gacosh, if_neg (lt_irrefl (0 : ℝ)), gacos_real_ge_one h]
  norm_num

theorem gacosh_two : gacosh 2 0 = (Real.log (2 + Real.sqrt 3), 0) := by
  rw [gacosh_real_ge_one (by norm_num : (1 : ℝ) ≤ 2)]
  norm_num

theorem gatanh_real_gt_one {x : ℝ} (h : 1 < x) :
    gatanh x 0 = (Real.log ((1 + x) ^ 2 / (1 - x) ^ 2) / 4, Real.pi / 2) := by
  unfold gatanh
  have harg : Complex.arg ⟨1 - x ^ 2 - (0 : ℝ) ^ 2, 2 * 0⟩ = Real.pi :=
    Complex.arg_eq_pi_iff.2
      ⟨show (1 - x ^ 2 - (0 : ℝ) ^ 2) < 0 by nlinarith, by norm_num⟩
  rw [harg]
  norm_num

theorem gatanh_real_lt_one {x : ℝ} (h1 : -1 < x) (h2 : x < 1) :
    gatanh x 0 = (Real.log ((1 + x) ^ 2 / (1 - x) ^ 2) / 4, 0) := by
  unfold gatanh
  have harg : Complex.arg ⟨1 - x ^ 2 - (0 : ℝ) ^ 2, 2 * 0⟩ = 0 :=
    Complex.arg_eq_zero_iff.2
      ⟨show (0 : ℝ) ≤ 1 - x ^ 2 - (0 : ℝ) ^ 2 by nlinarith, by norm_num⟩
  rw [harg]
  norm_num

/-- Modelled from the spec: the host complex library's `log10`,
`log(z)/ln(10)`. -/
def clog10 (z : ℂ) : ℂ := Complex.log z / (Real.log 10 : ℝ)

/-- Modelled from the spec: the host complex library's `sqrt`, the
principal branch `exp(log(z)/2)` with `sqrt(0) = 0`. -/
def csqrt (z : ℂ) : ℂ :=
  haveI := Classical.propDecidable (z = 0)
  if z = 0 then 0 else Complex.exp (Complex.log z / 2)

/-- The host complex library's `asin` (pair model as a complex number). -/
def casin (z : ℂ) : ℂ := ⟨(gasin z.re z.im).1, (gasin z.re z.im).2⟩

/-- The host complex library's `acos` (pair model as a complex number). -/
def cacos (z : ℂ) : ℂ := ⟨(gacos z.re z.im).1, (gacos z.re z.im).2⟩

/-- The host complex library's `atan` (pair model as a complex number). -/
def catan (z : ℂ) : ℂ := ⟨(gatan z.re z.im).1, (gatan z.re z.im).2⟩

/-- The host complex library's `asinh` (pair model as a complex number). -/
def casinh (z : ℂ) : ℂ := ⟨(gasinh z.re z.im).1, (gasinh z.re z.im).2⟩

/-- The host complex library's `acosh` (pair model as a complex number). -/
def cacosh (z : ℂ) : ℂ := ⟨(gacosh z.re z.im).1, (gacosh z.re z.im).2⟩

/-- The host complex library's `atanh` (pair model as a complex number). -/
def catanh (z : ℂ) : ℂ := ⟨(gatanh z.re z.im).1, (gatanh z.re z.im).2⟩

theorem qexp_complex_plane (w y : ℝ) :
    qexp ⟨w, 0, y, 0⟩ = embedC (Complex.exp ⟨w, y⟩) :=
  axialLift_complex_plane gexp (pairOf Complex.exp)
    (fun w n _ => by simp [gexp, pairOf, Complex.exp_re, Complex.exp_im])
    (pairOf_conj fun z _ => Complex.exp_conj z) w y

theorem glog_eq_pairOf_log {w n : ℝ} (hn : 0 ≤ n) (hwn : w ≠ 0 ∨ n ≠ 0) :
    glog w n = pairOf Complex.log w n := by
  have hz : (⟨w, n⟩ : ℂ) ≠ 0 := by
    intro h
    rw [Complex.ext_iff] at h
    simp only [Complex.zero_re, Complex.zero_im] at h
    rcases hwn with hw | hn'
    · exact hw h.1
    · exact hn' h.2
  have habs : Complex.abs ⟨w, n⟩ = Real.sqrt (w ^ 2 + n ^ 2) := by
    rw [Complex.abs_apply, Complex.normSq_mk]
    congr 1
    ring
  have hcos : w / Real.sqrt (w ^ 2 + n ^ 2) = Real.cos (Complex.arg ⟨w, n⟩) := by
    rw [Complex.cos_arg hz, habs]
  have harg : Real.arccos (w / Real.sqrt (w ^ 2 + n ^ 2)) = Complex.arg ⟨w, n⟩ := by
    rw [hcos, Real.arccos_cos (Complex.arg_nonneg_iff.2 hn) (Complex.arg_le_pi _)]
  unfold glog pairOf
  rw [Complex.log_re, Complex.log_im, habs, harg]

theorem qlog_complex_plane (w y : ℝ) (hwy : w ≠ 0 ∨ y ≠ 0) :
    qlog ⟨w, 0, y, 0⟩ = embedC (Complex.log ⟨w, y⟩) :=
  axialLift_complex_plane_restricted glog (pairOf Complex.log)
    (fun _ _ hn hwn => glog_eq_pairOf_log hn hwn)
    (pairOf_conj fun z hz => Complex.log_conj z fun hpi =>
      absurd (Complex.arg_eq_pi_iff.1 hpi).2 (ne_of_gt hz))
    w y hwy

theorem smul_embedC (c : ℝ) (v : ℂ) :
    QuatR.smul c (embedC v) = embedC ((c : ℂ) * v) := by
  unfold QuatR.smul embedC
  simp [QuatR.mk.injEq, Complex.mul_re, Complex.mul_im]

theorem qlog10_complex_plane (w y : ℝ) (hwy : w ≠ 0 ∨ y ≠ 0) :
    qlog10 ⟨w, 0, y, 0⟩ = embedC (clog10 ⟨w, y⟩) := by
  rw [qlog10, qlog_complex_plane w y hwy, smul_embedC]
  unfold clog10
  congr 1
  rw [Complex.ofReal_inv, ← div_eq_inv_mul]

theorem qexp_embedC (v : ℂ) : qexp (embedC v) = embedC (Complex.exp v) :=
  qexp_complex_plane v.re v.im

theorem qsqrt_complex_plane (w y : ℝ) :
    qsqrtR ⟨w, 0, y, 0⟩ = embedC (csqrt ⟨w, y⟩) := by
  rcases Classical.em (w = 0 ∧ y = 0) with ⟨hw, hy⟩ | hwy
  · subst hw
    subst hy
    have hz0 : (⟨(0 : ℝ), (0 : ℝ)⟩ : ℂ) = 0 := by
      apply Complex.ext <;> simp
    rw [qsqrtR, if_pos (show (⟨0, 0, 0, 0⟩ : QuatR) = qZeroR from rfl), csqrt, if_pos hz0]
    rfl
  · have hwy' : w ≠ 0 ∨ y ≠ 0 := by tauto
    have hq : (QuatR.mk w 0 y 0) ≠ qZeroR := fun h =>
      hwy ⟨congrArg QuatR.w h, congrArg QuatR.y h⟩
    have hz : (⟨w, y⟩ : ℂ) ≠ 0 := fun h =>
      hwy ⟨congrArg Complex.re h, congrArg Complex.im h⟩
    rw [qsqrtR, if_neg hq, csqrt, if_neg hz,
      qlog_complex_plane w y hwy', smul_embedC, qexp_embedC]
    have harg : ((1 / 2 : ℝ) : ℂ) * Complex.log ⟨w, y⟩ = Complex.log ⟨w, y⟩ / 2 := by
      push_cast
      ring
    rw [harg]

/-- C7: each supported transcendental function, applied to a quaternion of
the complex subspace `(w, 0, y, 0)`, agrees with the complex-library
function at `w + y·i`, re-embedded as `(a, 0, b, 0)` (exactly, in the
real-number model standing in for IEEE rounding); `log` and `log10` are
restricted to their domain (the nonzero quaternions). -/
theorem transcendental_complex_agreement :
    ∀ w y : ℝ,
      qexp ⟨w, 0, y, 0⟩ = embedC (Complex.exp ⟨w, y⟩) ∧
      (w ≠ 0 ∨ y ≠ 0 → qlog ⟨w, 0, y, 0⟩ = embedC (Complex.log ⟨w, y⟩)) ∧
      (w ≠ 0 ∨ y ≠ 0 → qlog10 ⟨w, 0, y, 0⟩ = embedC (clog10 ⟨w, y⟩)) ∧
      qsqrtR ⟨w, 0, y, 0⟩ = embedC (csqrt ⟨w, y⟩) ∧
      qsin ⟨w, 0, y, 0⟩ = embedC (Complex.sin ⟨w, y⟩) ∧
      qcos ⟨w, 0, y, 0⟩ = embedC (Complex.cos ⟨w, y⟩) ∧
      qtan ⟨w, 0, y, 0⟩ = embedC (Complex.tan ⟨w, y⟩) ∧
      qsinh ⟨w, 0, y, 0⟩ = embedC (Complex.sinh ⟨w, y⟩) ∧
      qcosh ⟨w, 0, y, 0⟩ = embedC (Complex.cosh ⟨w, y⟩) ∧
      qtanh ⟨w, 0, y, 0⟩ = embedC (Complex.tanh ⟨w, y⟩) ∧
      qasin ⟨w, 0, y, 0⟩ = embedC (casin ⟨w, y⟩) ∧
      qacos ⟨w, 0, y, 0⟩ = embedC (cacos ⟨w, y⟩) ∧
      qatan ⟨w, 0, y, 0⟩ = embedC (catan ⟨w, y⟩) ∧
      qasinh ⟨w, 0, y, 0⟩ = embedC (casinh ⟨w, y⟩) ∧
      qacosh ⟨w, 0, y, 0⟩ = embedC (cacosh ⟨w, y⟩) ∧
      qatanh ⟨w, 0, y, 0⟩ = embedC (catanh ⟨w, y⟩) :=
  fun w y =>
  ⟨qexp_complex_plane w y,
   fun h => qlog_complex_plane w y h,
   fun h => qlog10_complex_plane w y h,
   qsqrt_complex_plane w y,
   axialLift_complex_plane (pairOf Complex.sin) (pairOf Complex.sin)
     (fun _ _ _ => rfl) (pairOf_conj fun z _ => Complex.sin_conj z) w y,
   axialLift_complex_plane (pairOf Complex.cos) (pairOf Complex.cos)
     (fun _ _ _ => rfl) (pairOf_conj fun z _ => Complex.cos_conj z) w y,
   axialLift_complex_plane (pairOf Complex.tan) (pairOf Complex.tan)
     (fun _ _ _ => rfl) (pairOf_conj fun z _ => Complex.tan_conj z) w y,
   axialLift_complex_plane (pairOf Complex.sinh) (pairOf Complex.sinh)
     (fun _ _ _ => rfl) (pairOf_conj fun z _ => Complex.sinh_conj z) w y,
   axialLift_complex_plane (pairOf Complex.cosh) (pairOf Complex.cosh)
     (fun _ _ _ => rfl) (pairOf_conj fun z _ => Complex.cosh_conj z) w y,
   axialLift_complex_plane (pairOf Complex.tanh) (pairOf Complex.tanh)
     (fun _ _ _ => rfl) (pairOf_conj fun z _ => Complex.tanh_conj z) w y,
   axialLift_complex_plane gasin gasin (fun _ _ _ => rfl) gasin_conj w y,
   axialLift_complex_plane gacos gacos (fun _ _ _ => rfl) gacos_conj w y,
   axialLift_complex_plane gatan gatan (fun _ _ _ => rfl) gatan_conj w y,
   axialLift_complex_plane gasinh gasinh (fun _ _ _ => rfl) gasinh_conj w y,
   axialLift_complex_plane gacosh gacosh (fun _ _ _ => rfl) gacosh_conj w y,
   axialLift_complex_plane gatanh gatanh (fun _ _ _ => rfl) gatanh_conj w y⟩

/-- Witness for C7: `log` at the real quaternion `−1` agrees with the
complex logarithm of `−1` (which is `iπ`, landing on the `j` axis). -/
theorem transcendental_complex_agreement_witness :
    qlog ⟨-1, 0, 0, 0⟩ = embedC (Complex.log ⟨-1, 0⟩) :=
  (transcendental_complex_agreement (-1) 0).2.1 (Or.inl (by norm_num))
